import Mathlib

/-!
Shallow embedding of the Gibbs-based pulsar-timing outlier analysis in
timing_analysis/outlier_utils.py (class OutlierGibbs and the module-level
function poutlier), together with theorems checking the specification's
claims about it.

Modelling conventions: external collaborators (the enterprise PTA object,
scipy linear algebra, scipy random draws, numpy special functions) enter as
explicit oracle structures passed to each operation; attribute mutation is
explicit state passing; a Python exception is modelled by Option (none means
the call raised).  The floating-point arrays become functions into a linear
ordered field K, kept generic so that concrete witnesses evaluate over the
rationals; numpy reductions become Finset sums.
-/

namespace OutlierUtils

/-- The four outlier model variants used with OutlierGibbs.  The source
passes the model as a string; the repository only ever uses these four
values, so other strings are not modelled. -/
inductive LModel
  | gaussian
  | t
  | mixture
  | vvh17
deriving DecidableEq

/-- The theta_prior option: the constructor stores the string and
update_theta compares it against the beta value, treating anything else as
the flat prior. -/
inductive ThetaPrior
  | beta
  | flat
deriving DecidableEq

/-- The configuration accepted by the OutlierGibbs constructor: model
variant, a-priori outlier fraction m (stored as self.mp), initial or fixed
Student-t degrees of freedom tdf, whether df varies, the theta prior, the
initial outlier-width scale alpha, whether alpha varies, and the optional
spin period pspin used only by the vvh17 variant. -/
structure GibbsConfig (K : Type*) where
  lmodel : LModel
  mp : K
  tdf : K
  vary_df : Bool
  theta_prior : ThetaPrior
  alpha : K
  vary_alpha : Bool
  pspin : Option K

/-- The enterprise PTA collaborator for a single pulsar, reduced to the
methods the sampler calls: residuals, the diagonal white-noise covariance,
the basis matrix, the diagonal correlated-noise prior precision with its log
determinant, per-parameter prior log densities, and the name tests used by
get_hyper_param_indices and get_white_noise_indices (whether a parameter
name contains ecorr, log10_A or gamma, respectively efac or equad).  Here p
is the number of hyperparameters, n the number of observations and M the
basis dimension. -/
structure PTA (p n M : ℕ) (K : Type*) where
  residuals : Fin n → K
  ndiag : (Fin p → K) → Fin n → K
  basis : (Fin p → K) → Fin n → Fin M → K
  phiinv : (Fin p → K) → Fin M → K
  phiinvLogdet : (Fin p → K) → K
  logpdf : Fin p → K → K
  isHyper : Fin p → Bool
  isWhite : Fin p → Bool

/-- External numerical routines used by the sampler (numpy and scipy):
elementwise float power (alpha ** z), natural log, exp, square root, the
scipy normal density normpdf x loc scale, and gammaln.  These are library
collaborators, not code of this repository, so they enter as oracles. -/
structure NumOracle (K : Type*) where
  rpow : K → K → K
  log : K → K
  exp : K → K
  sqrt : K → K
  normpdf : K → K → K → K
  gammaln : K → K

/-- External scipy.linalg routines: cho_factor (none when it raises
LinAlgError on a non-positive-definite input), cho_solve, svd (none when it
raises LinAlgError; only the returned u and s are consumed), qr, and the
triangular solve used in the QR fallback of update_b. -/
structure LinAlg (M : ℕ) (K : Type*) where
  chol : (Fin M → Fin M → K) → Option (Fin M → Fin M → K)
  choSolve : (Fin M → Fin M → K) → (Fin M → K) → (Fin M → K)
  svd : (Fin M → Fin M → K) → Option ((Fin M → Fin M → K) × (Fin M → K))
  qr : (Fin M → Fin M → K) → ((Fin M → Fin M → K) × (Fin M → Fin M → K))
  solve : (Fin M → Fin M → K) → (Fin M → Fin M → K) → (Fin M → Fin M → K)

/-- The mutable per-chain attributes of OutlierGibbs: the latent coefficient
vector b, the cached products TNT and d (none when invalidated), the
per-observation outlier probabilities pout, indicators z, widths alpha, the
global outlier probability theta and the current degrees of freedom tdf. -/
structure GibbsState (n M : ℕ) (K : Type*) where
  b : Fin M → K
  TNT : Option (Fin M → Fin M → K)
  d : Option (Fin M → K)
  pout : Fin n → K
  z : Fin n → K
  alpha : Fin n → K
  theta : K
  tdf : K

/-- Randomness consumed by one inner Metropolis loop, indexed by inner
iteration: the chosen relative step scale, the chosen coordinate, the
standard normal jump, and the logarithm of the uniform acceptance draw. -/
structure MHOracle (p : ℕ) (K : Type*) where
  scale : ℕ → K
  coordPick : ℕ → Fin p
  jump : ℕ → K
  logu : ℕ → K

/-- Randomness consumed by one full Gibbs sweep: the two Metropolis loops,
the standard normal vector for update_b, the scipy Beta variate (a function
of its two shape parameters), the uniforms that drive the Bernoulli draws of
update_z, the Gamma variates of update_alpha (a function of the observation
index and the shape parameter), and the categorical pick of update_df
(consuming the normalised probability vector over the grid 1..30). -/
structure SweepOracle (p n M : ℕ) (K : Type*) where
  white : MHOracle p K
  hyper : MHOracle p K
  bnorm : Fin M → K
  betaDraw : K → K → K
  zunif : Fin n → K
  gammaDraw : Fin n → K → K
  dfPick : (Fin 30 → K) → Fin 30

section Updates

variable {p n M : ℕ} {K : Type*} [LinearOrderedField K]

/-- The local theta_mean of update_z and update_alpha: the basis matrix
applied to the current latent coefficients. -/
def theta_mean (pta : PTA p n M K) (st : GibbsState n M K)
    (xs : Fin p → K) : Fin n → K :=
  fun i => ∑ j, pta.basis xs i j * st.b j

/-- OutlierGibbs.update_theta: for the t and gaussian variants the current
theta is returned unchanged; for mixture and vvh17 a Beta variate is drawn
with parameters (sum z + mk, n - sum z + k1mm), where the pseudo-counts are
n times m and n times (1 - m) under the beta prior and 1 under the flat
prior. -/
def update_theta (cfg : GibbsConfig K) (betaDraw : K → K → K)
    (st : GibbsState n M K) : K :=
  match cfg.lmodel with
  | LModel.t | LModel.gaussian => st.theta
  | LModel.mixture | LModel.vvh17 =>
      let sz : K := ∑ i, st.z i
      let mk : K := if cfg.theta_prior = ThetaPrior.beta then (n : K) * cfg.mp else 1
      let k1mm : K :=
        if cfg.theta_prior = ThetaPrior.beta then (n : K) * (1 - cfg.mp) else 1
      betaDraw (sz + mk) ((n : K) - sz + k1mm)

/-- The numerator of the posterior outlier weight computed in update_z:
theta times the wide-component normal density for the mixture variant, and
the constant theta / pspin for vvh17; none models the TypeError the source
raises at this line when pspin was never supplied. -/
def ztop (cfg : GibbsConfig K) (pta : PTA p n M K) (nm : NumOracle K)
    (st : GibbsState n M K) (xs : Fin p → K) : Option (Fin n → K) :=
  if cfg.lmodel = LModel.vvh17 then
    match cfg.pspin with
    | none => none
    | some ps => some (fun _ => st.theta / ps)
  else
    some (fun i => st.theta * nm.normpdf (pta.residuals i)
      (theta_mean pta st xs i) (nm.sqrt (st.alpha i * pta.ndiag xs i)))

/-- The denominator of the posterior outlier weight computed in update_z:
the numerator plus (1 - theta) times the inlier normal density. -/
def zbot (pta : PTA p n M K) (nm : NumOracle K) (st : GibbsState n M K)
    (xs : Fin p → K) (top : Fin n → K) : Fin n → K :=
  fun i => top i + (1 - st.theta) * nm.normpdf (pta.residuals i)
    (theta_mean pta st xs i) (nm.sqrt (pta.ndiag xs i))

/-- OutlierGibbs.update_z, returning the pair (new pout, new z): the source
assigns the clamped ratio to self._pout and returns the Bernoulli draws.
For finite operands the floating division top/bot is NaN exactly when top
and bot are both zero (bot is top plus a nonnegative term in every reachable
state), and the source replaces every NaN entry of the ratio by 1; the
Bernoulli draw with success probability min(q, 1) is modelled by inversion
from the uniform oracle. -/
def update_z (cfg : GibbsConfig K) (pta : PTA p n M K) (nm : NumOracle K)
    (zunif : Fin n → K) (st : GibbsState n M K) (xs : Fin p → K) :
    Option ((Fin n → K) × (Fin n → K)) :=
  match cfg.lmodel with
  | LModel.t | LModel.gaussian => some (st.pout, st.z)
  | LModel.mixture | LModel.vvh17 =>
      match ztop cfg pta nm st xs with
      | none => none
      | some top =>
          let bot := zbot pta nm st xs top
          let q : Fin n → K :=
            fun i => if bot i = 0 ∧ top i = 0 then 1 else top i / bot i
          let z' : Fin n → K := fun i => if zunif i < min (q i) 1 then 1 else 0
          some (q, z')

/-- OutlierGibbs.update_alpha: when the indicators sum to at least one and
vary_alpha is set, every alpha entry is redrawn as the half of the squared
basis-subtracted residual times z over the white variance plus tdf, divided
by an independent Gamma((z + tdf) / 2) variate (equation 12 of Tak, Ellis
and Ghosh); otherwise alpha is returned unchanged. -/
def update_alpha (cfg : GibbsConfig K) (pta : PTA p n M K)
    (gammaDraw : Fin n → K → K) (st : GibbsState n M K) (xs : Fin p → K) :
    Fin n → K :=
  if 1 ≤ (∑ i, st.z i) ∧ cfg.vary_alpha = true then
    fun i =>
      (((pta.residuals i - theta_mean pta st xs i) ^ 2 * st.z i
          / pta.ndiag xs i + st.tdf) / 2)
        / gammaDraw i ((st.z i + st.tdf) / 2)
  else st.alpha

/-- OutlierGibbs.get_lnlikelihood_df: the unnormalised log conditional
density of the degrees of freedom given alpha. -/
def get_lnlikelihood_df (nm : NumOracle K) (st : GibbsState n M K)
    (df : K) : K :=
  -(df / 2) * (∑ i, (nm.log (st.alpha i) + 1 / st.alpha i))
    + (n : K) * (df / 2) * nm.log (df / 2) - (n : K) * nm.gammaln (df / 2)

/-- OutlierGibbs.update_df: when vary_df is set, the log conditional density
is evaluated on the grid 1..30, normalised through the log-sum-exp trick,
and one grid value is sampled according to the resulting probabilities (the
categorical draw is the dfPick oracle, consuming that probability vector);
otherwise the held tdf is returned unchanged. -/
def update_df (cfg : GibbsConfig K) (nm : NumOracle K)
    (dfPick : (Fin 30 → K) → Fin 30) (st : GibbsState n M K) : K :=
  if cfg.vary_df = true then
    let log_den_df : Fin 30 → K :=
      fun j => get_lnlikelihood_df nm st (((j : ℕ) : K) + 1)
    let mx := Finset.univ.sup' ⟨0, Finset.mem_univ 0⟩ log_den_df
    let den_df : Fin 30 → K := fun j => nm.exp (log_den_df j - mx)
    let s := ∑ j, den_df j
    (((dfPick (fun j => den_df j / s) : Fin 30) : ℕ) : K) + 1
  else st.tdf

/-- The OutlierGibbs constructor, restricted to the latent sampler state it
initialises.  The source checks for a basis_ecorr signal but only prints on
failure, stores the configuration, draws one prior sample to size the basis
(the b vector of zeros of length M), zeroes the caches and pout, initialises
z to zeros and then overwrites it with ones for the t, mixture and vvh17
variants, sets alpha to ones when it varies and to the configured constant
otherwise, and sets theta to m.  No validation of pspin (or anything else)
is performed, so construction always returns some state. -/
def gibbsInit (cfg : GibbsConfig K) : Option (GibbsState n M K) :=
  some
    { b := fun _ => 0
      TNT := none
      d := none
      pout := fun _ => 0
      z :=
        if cfg.lmodel = LModel.t ∨ cfg.lmodel = LModel.mixture
            ∨ cfg.lmodel = LModel.vvh17 then
          fun _ => 1
        else fun _ => 0
      alpha := if cfg.vary_alpha = true then fun _ => 1 else fun _ => cfg.alpha
      theta := cfg.mp
      tdf := cfg.tdf }

end Updates

section Likelihoods

variable {p n M : ℕ} {K : Type*} [LinearOrderedField K]

/-- OutlierGibbs.get_hyper_param_indices: indices of parameters whose names
contain ecorr, log10_A or gamma. -/
def get_hyper_param_indices (pta : PTA p n M K) : List (Fin p) :=
  (List.finRange p).filter fun j => pta.isHyper j

/-- OutlierGibbs.get_white_noise_indices: indices of parameters whose names
contain efac or equad. -/
def get_white_noise_indices (pta : PTA p n M K) : List (Fin p) :=
  (List.finRange p).filter fun j => pta.isWhite j

/-- OutlierGibbs.get_lnprior: the sum of the per-parameter prior log
densities. -/
def get_lnprior (pta : PTA p n M K) (xs : Fin p → K) : K :=
  ∑ j, pta.logpdf j (xs j)

/-- OutlierGibbs.get_lnlikelihood_white: the white-noise part of the
likelihood, with the outlier-inflated diagonal covariance alpha ** z times
the white variances and the basis-predicted mean subtracted.  This function
does not touch the TNT and d caches. -/
def get_lnlikelihood_white (pta : PTA p n M K) (nm : NumOracle K)
    (st : GibbsState n M K) (xs : Fin p → K) : K :=
  let Nvec := fun i => nm.rpow (st.alpha i) (st.z i) * pta.ndiag xs i
  let yred := fun i => pta.residuals i - theta_mean pta st xs i
  let logdet_N := ∑ i, nm.log (Nvec i)
  let rNr := (∑ i, yred i ^ 2 / Nvec i);
  -(1 / 2 : K) * (logdet_N + rNr)

/-- The cached products TNT and d shared by get_lnlikelihood and update_b:
recomputed from the basis, residuals and current inflated noise diagonal
when the cache is empty, and read back otherwise.  The source guards with
(TNT is None and d is None) and always stores both together, so the two
fields are none or some together in every reachable state. -/
def lnlikeCache (pta : PTA p n M K) (nm : NumOracle K)
    (st : GibbsState n M K) (xs : Fin p → K) :
    (Fin M → Fin M → K) × (Fin M → K) :=
  match st.TNT, st.d with
  | some tn, some dv => (tn, dv)
  | _, _ =>
      let Nvec := fun i => nm.rpow (st.alpha i) (st.z i) * pta.ndiag xs i
      let T := pta.basis xs
      (fun j k => ∑ i, T i j * (T i k / Nvec i),
       fun j => ∑ i, T i j * (pta.residuals i / Nvec i))

/-- The matrix Sigma = TNT + diag(phiinv) that both get_lnlikelihood and
update_b factorise. -/
def lnlikeSigma (pta : PTA p n M K) (nm : NumOracle K)
    (st : GibbsState n M K) (xs : Fin p → K) : Fin M → Fin M → K :=
  fun j k => (lnlikeCache pta nm st xs).1 j k + (if j = k then pta.phiinv xs j else 0)

/-- OutlierGibbs.get_lnlikelihood: the full likelihood.  It fills the TNT
and d caches when they are empty (the returned state), and when the Cholesky
factorisation of Sigma raises it returns none, the model of the float value
minus infinity the source returns instead of propagating the error. -/
def get_lnlikelihood (pta : PTA p n M K) (la : LinAlg M K) (nm : NumOracle K)
    (st : GibbsState n M K) (xs : Fin p → K) : Option K × GibbsState n M K :=
  let Nvec := fun i => nm.rpow (st.alpha i) (st.z i) * pta.ndiag xs i
  let cache := lnlikeCache pta nm st xs
  let st' := { st with TNT := some cache.1, d := some cache.2 }
  let logdet_N := ∑ i, nm.log (Nvec i)
  let rNr := ∑ i, pta.residuals i ^ 2 / Nvec i
  let ll0 := -(1 / 2 : K) * (logdet_N + rNr)
  match la.chol (lnlikeSigma pta nm st xs) with
  | none => (none, st')
  | some cf =>
      let expval := la.choSolve cf cache.2
      let logdet_sigma := ∑ j, 2 * nm.log (cf j j)
      (some (ll0 + (1 / 2 : K) *
        ((∑ j, cache.2 j * expval j) - logdet_sigma - pta.phiinvLogdet xs)), st')

/-- The Metropolis acceptance test diff > log(rand), written on the float
extended line: none stands for a log likelihood of minus infinity, so a
proposal with likelihood minus infinity is never accepted (the difference is
minus infinity, or NaN when the current likelihood is also minus infinity,
and neither exceeds the log uniform), while a finite proposal from a current
minus-infinity likelihood gives difference plus infinity and is always
accepted. -/
def metroAccept (l1 : Option K) (p1 : K) (l0 : Option K) (p0 : K)
    (logu : K) : Bool :=
  match l1, l0 with
  | none, _ => false
  | some _, none => true
  | some a, some b => decide (logu < (a + p1) - (b + p0))

/-- The per-coordinate Gaussian jump q[par] += randn * sigmas * scale. -/
def bump (x : Fin p → K) (c : Fin p) (delta : K) : Fin p → K :=
  fun j => if j = c then x j + delta else x j

/-- One inner iteration of the Metropolis loop of update_white_params:
propose a per-coordinate Gaussian jump, evaluate the white likelihood and
the prior at the proposal, and accept when the difference exceeds the log
uniform.  The accumulator carries (current vector, its white log
likelihood, its log prior). -/
def whiteStep (pta : PTA p n M K) (nm : NumOracle K) (o : MHOracle p K)
    (sigmas : K) (st : GibbsState n M K) (acc : (Fin p → K) × K × K)
    (ii : ℕ) : (Fin p → K) × K × K :=
  let q := bump acc.1 (o.coordPick ii) (o.jump ii * sigmas * o.scale ii)
  let l1 := get_lnlikelihood_white pta nm st q
  let p1 := get_lnprior pta q
  if o.logu ii < (l1 + p1) - (acc.2.1 + acc.2.2) then (q, l1, p1) else acc

/-- OutlierGibbs.update_white_params: 20 inner Metropolis iterations over
the white-noise coordinates using the white likelihood only, with step size
0.05 times the number of white parameters times a randomly chosen relative
scale, one coordinate at a time.  The white likelihood has no failure mode
and no cache side effect, so this update is pure in the sampler state. -/
def update_white_params (pta : PTA p n M K) (nm : NumOracle K)
    (o : MHOracle p K) (st : GibbsState n M K) (xs : Fin p → K) : Fin p → K :=
  let wind := get_white_noise_indices pta
  let sigmas : K := (5 / 100 : K) * (wind.length : K)
  let l0 := get_lnlikelihood_white pta nm st xs
  let p0 := get_lnprior pta xs
  ((List.range 20).foldl (whiteStep pta nm o sigmas st) (xs, l0, p0)).1

/-- One inner iteration of the Metropolis loop of update_hyper_params: like
whiteStep but with the full likelihood, whose cache side effect on the
sampler state is threaded through the accumulator (current vector, its log
likelihood or none for minus infinity, its log prior, the state). -/
def hyperStep (pta : PTA p n M K) (la : LinAlg M K) (nm : NumOracle K)
    (o : MHOracle p K) (sigmas : K)
    (acc : (Fin p → K) × Option K × K × GibbsState n M K) (ii : ℕ) :
    (Fin p → K) × Option K × K × GibbsState n M K :=
  let q := bump acc.1 (o.coordPick ii) (o.jump ii * sigmas * o.scale ii)
  let r1 := get_lnlikelihood pta la nm acc.2.2.2 q
  let p1 := get_lnprior pta q
  if metroAccept r1.1 p1 acc.2.1 acc.2.2.1 (o.logu ii) then (q, r1.1, p1, r1.2)
  else (acc.1, acc.2.1, acc.2.2.1, r1.2)

/-- OutlierGibbs.update_hyper_params: 10 inner Metropolis iterations over
the correlated-noise coordinates using the full likelihood; the likelihood
calls thread the cache state, which the first call of the sweep fills. -/
def update_hyper_params (pta : PTA p n M K) (la : LinAlg M K)
    (nm : NumOracle K) (o : MHOracle p K) (st : GibbsState n M K)
    (xs : Fin p → K) : (Fin p → K) × GibbsState n M K :=
  let hind := get_hyper_param_indices pta
  let sigmas : K := (5 / 100 : K) * (hind.length : K)
  let r0 := get_lnlikelihood pta la nm st xs
  let p0 := get_lnprior pta xs
  let fin := (List.range 10).foldl (hyperStep pta la nm o sigmas) (xs, r0.1, p0, r0.2)
  (fin.1, fin.2.2.2)

/-- OutlierGibbs.update_b: the exact Gaussian conditional draw of the latent
coefficients.  It fills the TNT and d caches when empty, factorises Sigma by
SVD, and on an SVD failure falls back to a QR solve followed by an SVD of
the approximate inverse; a failure of that second, unguarded SVD propagates
(none).  The returned pair is the drawn b and the cache-updated state. -/
def update_b (pta : PTA p n M K) (la : LinAlg M K) (nm : NumOracle K)
    (eps : Fin M → K) (st : GibbsState n M K) (xs : Fin p → K) :
    Option ((Fin M → K) × GibbsState n M K) :=
  let cache := lnlikeCache pta nm st xs
  let st' := { st with TNT := some cache.1, d := some cache.2 }
  let Sigma := lnlikeSigma pta nm st xs
  match la.svd Sigma with
  | some us =>
      let mn := fun j => ∑ k, us.1 j k * ((∑ l, us.1 l k * cache.2 l) / us.2 k)
      let Li := fun j k => us.1 j k * nm.sqrt (1 / us.2 k)
      some (fun j => mn j + ∑ k, Li j k * eps k, st')
  | none =>
      let qrr := la.qr Sigma
      let Sigi := la.solve qrr.2 (fun j k => qrr.1 k j)
      let mn := fun j => ∑ k, Sigi j k * cache.2 k
      match la.svd Sigi with
      | none => none
      | some us =>
          let Li := fun j k => us.1 j k * nm.sqrt (1 / us.2 k)
          some (fun j => mn j + ∑ k, Li j k * eps k, st')

end Likelihoods

section Driver

variable {p n M : ℕ} {K : Type*} [LinearOrderedField K]

/-- The condition np.all(xnew != self.chain[ii, -1]) guarding the update_b
call in the sweep: elementwise comparison of the post-Metropolis vector
against the last scalar entry of the row recorded at the start of the
sweep. -/
def bUpdateCond [NeZero p] (xnew xold : Fin p → K) : Bool :=
  decide (∀ j, xnew j ≠ xold ⟨p - 1, Nat.sub_one_lt (NeZero.ne p)⟩)

/-- The cache invalidation and the two Metropolis phases at the start of
each sweep of OutlierGibbs.sample: self.TNT and self.d are set to None,
then the white-noise and correlated-noise parameters are updated. -/
def sweepMH (pta : PTA p n M K) (la : LinAlg M K) (nm : NumOracle K)
    (ow oh : MHOracle p K) (st : GibbsState n M K) (xs : Fin p → K) :
    (Fin p → K) × GibbsState n M K :=
  let st0 := { st with TNT := none, d := none }
  let x1 := update_white_params pta nm ow st0 xs
  update_hyper_params pta la nm oh st0 x1

/-- The tail of the sweep after the latent coefficient step: update theta,
then z together with pout (a raise there propagates), then alpha from the
new indicators, then the degrees of freedom from the new widths, in the
order of the source loop body. -/
def sweepTail (cfg : GibbsConfig K) (pta : PTA p n M K) (nm : NumOracle K)
    (o : SweepOracle p n M K) (x2 : Fin p → K) (st2 : GibbsState n M K) :
    Option ((Fin p → K) × GibbsState n M K) :=
  let st3 := { st2 with theta := update_theta cfg o.betaDraw st2 }
  match update_z cfg pta nm o.zunif st3 x2 with
  | none => none
  | some pz =>
      let st4 := { st3 with pout := pz.1, z := pz.2 }
      let st5 := { st4 with alpha := update_alpha cfg pta o.gammaDraw st4 x2 }
      some (x2, { st5 with tdf := update_df cfg nm o.dfPick st5 })

/-- One full sweep of the loop body of OutlierGibbs.sample, after the
current state has been recorded into the chains: invalidate the caches, run
the two Metropolis phases, redraw b when every coordinate of the new vector
differs from the last coordinate of the recorded row, then run the tail of
latent updates.  A raise in update_b or update_z propagates as none. -/
def sweepBody [NeZero p] (cfg : GibbsConfig K) (pta : PTA p n M K)
    (la : LinAlg M K) (nm : NumOracle K) (o : SweepOracle p n M K)
    (xs : Fin p → K) (st : GibbsState n M K) :
    Option ((Fin p → K) × GibbsState n M K) :=
  let mh := sweepMH pta la nm o.white o.hyper st xs
  if bUpdateCond mh.1 xs = true then
    match update_b pta la nm o.bnorm mh.2 mh.1 with
    | none => none
    | some bs => sweepTail cfg pta nm o mh.1 { bs.2 with b := bs.1 }
  else sweepTail cfg pta nm o mh.1 mh.2

/-- The in-memory chain arrays of OutlierGibbs.sample, preallocated as
zeros of length niter (indices beyond the allocated range are never written
and stay zero in this model). -/
structure Chains (p n M : ℕ) (K : Type*) where
  chain : ℕ → Fin p → K
  bchain : ℕ → Fin M → K
  thetachain : ℕ → K
  zchain : ℕ → Fin n → K
  alphachain : ℕ → Fin n → K
  poutchain : ℕ → Fin n → K
  dfchain : ℕ → K

/-- The zero-filled chain arrays created at the top of sample. -/
def zeroChains : Chains p n M K where
  chain := fun _ _ => 0
  bchain := fun _ _ => 0
  thetachain := fun _ => 0
  zchain := fun _ _ => 0
  alphachain := fun _ _ => 0
  poutchain := fun _ _ => 0
  dfchain := fun _ => 0

/-- The assignments at the top of each sweep: row ii of every chain array
receives the current parameter vector and latent state. -/
def recordRow (ch : Chains p n M K) (ii : ℕ) (x : Fin p → K)
    (st : GibbsState n M K) : Chains p n M K where
  chain := fun i => if i = ii then x else ch.chain i
  bchain := fun i => if i = ii then st.b else ch.bchain i
  thetachain := fun i => if i = ii then st.theta else ch.thetachain i
  zchain := fun i => if i = ii then st.z else ch.zchain i
  alphachain := fun i => if i = ii then st.alpha else ch.alphachain i
  poutchain := fun i => if i = ii then st.pout else ch.poutchain i
  dfchain := fun i => if i = ii then st.tdf else ch.dfchain i

/-- The sweep loop of OutlierGibbs.sample over ii from startLength to
niter - 1, with fuel = niter - startLength: record the current state into
row ii, set self.iter to ii, run one sweep, and recurse; a raise inside a
sweep propagates.  The periodic savetxt flush writes prefixes of these
arrays to disk and changes no in-memory state, so it does not appear.  The
result carries the final chains, parameter vector, state and the last value
assigned to self.iter. -/
def sampleLoop [NeZero p] (cfg : GibbsConfig K) (pta : PTA p n M K)
    (la : LinAlg M K) (nm : NumOracle K) (os : ℕ → SweepOracle p n M K) :
    ℕ → ℕ → (Fin p → K) → GibbsState n M K → Chains p n M K → ℕ →
    Option (Chains p n M K × (Fin p → K) × GibbsState n M K × ℕ)
  | 0, _, x, st, ch, itr => some (ch, x, st, itr)
  | fuel + 1, ii, x, st, ch, _ =>
      let ch' := recordRow ch ii x st
      match sweepBody cfg pta la nm (os ii) x st with
      | none => none
      | some r => sampleLoop cfg pta la nm os fuel (ii + 1) r.1 r.2 ch' ii

/-- The seven persisted chain files read back by a resumed run, as lists of
rows (their lengths may differ after a partially written flush). -/
structure LoadedChains (p n M : ℕ) (K : Type*) where
  cChain : List (Fin p → K)
  cB : List (Fin M → K)
  cTheta : List K
  cZ : List (Fin n → K)
  cAlpha : List (Fin n → K)
  cPout : List (Fin n → K)
  cDf : List K

/-- np.min over the row counts of the seven loaded arrays. -/
def minLength (lc : LoadedChains p n M K) : ℕ :=
  min (min (min lc.cChain.length lc.cB.length) (min lc.cTheta.length lc.cZ.length))
    (min (min lc.cAlpha.length lc.cPout.length) lc.cDf.length)

/-- The resume block of OutlierGibbs.sample: truncate every loaded array to
the minimum length, copy the truncated rows into the zero-filled in-memory
arrays, set startLength to the minimum length and take the new starting
parameter vector from row startLength - 1 of the chain array.  The sampler
state argument passes through untouched: the source re-seeds only the
parameter vector, not b, z, theta, alpha, tdf or pout. -/
def resumeInit (lc : LoadedChains p n M K) (st : GibbsState n M K)
    (ch : Chains p n M K) :
    ℕ × (Fin p → K) × GibbsState n M K × Chains p n M K :=
  let k := minLength lc
  let tChain := lc.cChain.take k
  let tB := lc.cB.take k
  let tTheta := lc.cTheta.take k
  let tZ := lc.cZ.take k
  let tAlpha := lc.cAlpha.take k
  let tPout := lc.cPout.take k
  let tDf := lc.cDf.take k
  let ch' : Chains p n M K :=
    { chain := fun i => if i < tChain.length then tChain.getD i (fun _ => 0) else ch.chain i
      bchain := fun i => if i < tB.length then tB.getD i (fun _ => 0) else ch.bchain i
      thetachain := fun i => if i < tTheta.length then tTheta.getD i 0 else ch.thetachain i
      zchain := fun i => if i < tZ.length then tZ.getD i (fun _ => 0) else ch.zchain i
      alphachain := fun i => if i < tAlpha.length then tAlpha.getD i (fun _ => 0) else ch.alphachain i
      poutchain := fun i => if i < tPout.length then tPout.getD i (fun _ => 0) else ch.poutchain i
      dfchain := fun i => if i < tDf.length then tDf.getD i 0 else ch.dfchain i }
  (k, ch'.chain (k - 1), st, ch')

/-- OutlierGibbs.sample: allocate zero chains, optionally resume from the
persisted arrays, then run the sweep loop from startLength to niter - 1
(self.iter starts at 0). -/
def sample [NeZero p] (cfg : GibbsConfig K) (pta : PTA p n M K)
    (la : LinAlg M K) (nm : NumOracle K) (os : ℕ → SweepOracle p n M K)
    (xs : Fin p → K) (st : GibbsState n M K) (niter : ℕ)
    (resume : Option (LoadedChains p n M K)) :
    Option (Chains p n M K × (Fin p → K) × GibbsState n M K × ℕ) :=
  let ch0 : Chains p n M K := zeroChains
  match resume with
  | none => sampleLoop cfg pta la nm os niter 0 xs st ch0 0
  | some lc =>
      let ri := resumeInit lc st ch0
      sampleLoop cfg pta la nm os (niter - ri.1) ri.1 ri.2.1 ri.2.2.1 ri.2.2.2 0

/-- OutlierGibbs.marg_outlierprob: np.mean(self.poutchain[burn:, :iter],
axis=0), with burn defaulting to int(0.25 * niter), niter being the
allocated first dimension of poutchain.  The first slice keeps the rows
from burn to the end of the allocated array (including rows never reached
by the sweep loop), the second keeps the first min(iter, n) columns, and
the mean runs over the kept rows, yielding one value per kept column. -/
def marg_outlierprob (niter : ℕ) (pc : ℕ → Fin n → K) (iter : ℕ)
    (burn : Option ℕ) : List K :=
  let b := burn.getD (niter / 4)
  (List.range (min iter n)).map fun j =>
    if h : j < n then
      (∑ i ∈ Finset.Ico b niter, pc i ⟨j, h⟩) / ((niter : K) - (b : K))
    else 0

/-- Modelled from the specification wording of the summariser, for
comparison with the source form: the column-wise mean over the recorded
post-burn-in sweeps only, one value per observation (a vector of length n),
with the burn-in defaulting to a quarter of the sweeps recorded so far. -/
def marg_outlierprob_specform (pc : ℕ → Fin n → K) (iter : ℕ)
    (burn : Option ℕ) : List K :=
  let b := burn.getD (iter / 4)
  (List.range n).map fun j =>
    if h : j < n then
      (∑ i ∈ Finset.Ico b iter, pc i ⟨j, h⟩) / ((iter : K) - (b : K))
    else 0

end Driver

section Poutlier

variable {n : ℕ}

/-- The module-level function poutlier, as written in the source: the
likelihood invocation at the top only refreshes cached attributes of the
likelihood object (its value is discarded), after which the function reads
the residuals r, the white variances N, the a-priori outlier probability Pb
and the outlier-range width P0, and returns the posterior outlier
probability vector together with the whitened residuals. -/
noncomputable def poutlier (r N : Fin n → ℝ) (Pb P0 : ℝ) :
    (Fin n → ℝ) × (Fin n → ℝ) :=
  let PA := 1.0 - Pb
  let PB := Pb
  let PtA := fun i => Real.exp (-0.5 * r i ^ 2 / N i) / Real.sqrt (2 * Real.pi * N i)
  let PtB := 1.0 / P0
  let num := fun _ : Fin n => PtB * PB
  let den := fun i => PtB * PB + PtA i * PA
  (fun i => num i / den i, fun i => r i / Real.sqrt (N i))

/-- Modelled from the specification's algebraic description, for comparison
with the source form of poutlier: PtA is the Normal density of r at mean 0
and variance N, PtB the uniform alternative density 1 / P0, and the result
the normalised two-component posterior weight and the whitened residual. -/
noncomputable def poutlier_specform (r N : Fin n → ℝ) (Pb P0 : ℝ) :
    (Fin n → ℝ) × (Fin n → ℝ) :=
  let PtA := fun i => Real.exp (-(r i ^ 2) / (2 * N i)) / Real.sqrt (2 * Real.pi * N i)
  let PtB := 1 / P0
  (fun i => (PtB * Pb) / (PtB * Pb + PtA i * (1 - Pb)),
   fun i => r i / Real.sqrt (N i))

end Poutlier

section Fixtures

/-- A gaussian-variant configuration over the rationals, used to evaluate
the theorems below on explicit inputs. -/
def cfgGauss : GibbsConfig ℚ where
  lmodel := LModel.gaussian
  mp := 1 / 100
  tdf := 4
  vary_df := false
  theta_prior := ThetaPrior.beta
  alpha := 1
  vary_alpha := false
  pspin := none

/-- A mixture-variant configuration over the rationals. -/
def cfgMix : GibbsConfig ℚ where
  lmodel := LModel.mixture
  mp := 1 / 100
  tdf := 4
  vary_df := true
  theta_prior := ThetaPrior.beta
  alpha := 1
  vary_alpha := true
  pspin := none

/-- A vvh17-variant configuration with the spin period left unset. -/
def cfgVvh : GibbsConfig ℚ where
  lmodel := LModel.vvh17
  mp := 1 / 100
  tdf := 4
  vary_df := false
  theta_prior := ThetaPrior.beta
  alpha := 1
  vary_alpha := true
  pspin := none

/-- A concrete two-parameter, one-observation, one-basis-column PTA over the
rationals: unit white variances, unit basis, zero prior precision, residual
four, parameter zero white and parameter one hyper. -/
def ptaQ : PTA 2 1 1 ℚ where
  residuals := fun _ => 4
  ndiag := fun _ _ => 1
  basis := fun _ _ _ => 1
  phiinv := fun _ _ => 0
  phiinvLogdet := fun _ => 0
  logpdf := fun _ _ => 0
  isHyper := fun j => j == 1
  isWhite := fun j => j == 0

/-- Concrete numerical oracles over the rationals: float power restricted to
the exponents zero and one that binary indicators produce, and constant
stand-ins for the transcendental routines. -/
def nmQ : NumOracle ℚ where
  rpow := fun a z => if z = 1 then a else 1
  log := fun _ => 0
  exp := fun _ => 1
  sqrt := fun x => x
  normpdf := fun _ _ _ => 0
  gammaln := fun _ => 0

/-- Concrete linear-algebra oracles over the rationals whose Cholesky
factorisation always raises and whose SVD always succeeds with unit
factors. -/
def laQ : LinAlg 1 ℚ where
  chol := fun _ => none
  choSolve := fun _ d => d
  svd := fun _ => some (fun _ _ => 1, fun _ => 1)
  qr := fun s => (s, s)
  solve := fun _ _ => fun _ _ => 1

/-- The concrete starting parameter vector (1, 2). -/
def xsQ : Fin 2 → ℚ := fun j => if j = 0 then 1 else 2

/-- The state the constructor produces for cfgGauss: zero coefficients and
pout, zero indicators, unit widths, theta 1/100, four degrees of freedom. -/
def stGauss : GibbsState 1 1 ℚ where
  b := fun _ => 0
  TNT := none
  d := none
  pout := fun _ => 0
  z := fun _ => 0
  alpha := fun _ => 1
  theta := 1 / 100
  tdf := 4

/-- The state the constructor produces for cfgMix: as stGauss but with the
indicators initialised to one. -/
def stMix : GibbsState 1 1 ℚ where
  b := fun _ => 0
  TNT := none
  d := none
  pout := fun _ => 0
  z := fun _ => 1
  alpha := fun _ => 1
  theta := 1 / 100
  tdf := 4

/-- A Metropolis oracle that proposes nothing and rejects everything. -/
def mhTriv : MHOracle 2 ℚ where
  scale := fun _ => 1
  coordPick := fun _ => 0
  jump := fun _ => 0
  logu := fun _ => 1

/-- A Metropolis oracle whose first iteration jumps coordinate zero by four
(jump 8 times step size 0.05 times scale 10) and accepts it, all later
iterations proposing nothing and rejecting. -/
def mhKick : MHOracle 2 ℚ where
  scale := fun ii => if ii = 0 then 10 else 1
  coordPick := fun _ => 0
  jump := fun ii => if ii = 0 then 8 else 0
  logu := fun ii => if ii = 0 then -1000 else 1

/-- A sweep oracle built from the trivial pieces. -/
def oTriv : SweepOracle 2 1 1 ℚ where
  white := mhTriv
  hyper := mhTriv
  bnorm := fun _ => 1
  betaDraw := fun _ _ => 1 / 2
  zunif := fun _ => 0
  gammaDraw := fun _ _ => 1
  dfPick := fun _ => 0

/-- The sweep oracle whose white phase moves coordinate zero from 1 to 5. -/
def oKick : SweepOracle 2 1 1 ℚ :=
  { oTriv with white := mhKick }

/-- A Metropolis oracle whose first two iterations move coordinate zero by
four and coordinate one by five, both accepted, all later iterations
proposing nothing and rejecting. -/
def mhKick2 : MHOracle 2 ℚ where
  scale := fun ii => if ii ≤ 1 then 10 else 1
  coordPick := fun ii => if ii = 1 then 1 else 0
  jump := fun ii => if ii = 0 then 8 else if ii = 1 then 10 else 0
  logu := fun ii => if ii ≤ 1 then -1000 else 1

/-- The sweep oracle whose white phase moves both coordinates. -/
def oKick2 : SweepOracle 2 1 1 ℚ :=
  { oTriv with white := mhKick2 }

/-- Loaded chain files of one durable sweep each, whose recorded latent
values all differ from the constructor values of stMix. -/
def lcC1 : LoadedChains 2 1 1 ℚ where
  cChain := [fun _ => 3]
  cB := [fun _ => 5]
  cTheta := [1 / 2]
  cZ := [fun _ => 0]
  cAlpha := [fun _ => 7]
  cPout := [fun _ => 1 / 4]
  cDf := [9]

/-- The failing poutchain for the summariser: four allocated rows over three
observations, rows zero and one recorded with value one, rows two and three
never reached and still zero. -/
def pcC2 : ℕ → Fin 3 → ℚ := fun i _ => if i ≤ 1 then 1 else 0

end Fixtures

section ProofInfra

variable {p n M : ℕ} {K : Type*} [LinearOrderedField K]

/-- The latent fields of the sampler state that the likelihood cache
updates leave untouched: everything except TNT and d. -/
def sameLatent (st' st : GibbsState n M K) : Prop :=
  st'.b = st.b ∧ st'.pout = st.pout ∧ st'.z = st.z ∧ st'.alpha = st.alpha
    ∧ st'.theta = st.theta ∧ st'.tdf = st.tdf

/-- The invariant of claim C6: theta in the unit interval, binary
indicators, degrees of freedom in the grid range. -/
def stateInv (st : GibbsState n M K) : Prop :=
  (0 ≤ st.theta ∧ st.theta ≤ 1) ∧ (∀ i, st.z i = 0 ∨ st.z i = 1)
    ∧ (1 ≤ st.tdf ∧ st.tdf ≤ 30)

end ProofInfra

section HelperLemmas

variable {p n M : ℕ} {K : Type*} [LinearOrderedField K]

omit [LinearOrderedField K] in
theorem sameLatent_refl (st : GibbsState n M K) : sameLatent st st :=
  ⟨rfl, rfl, rfl, rfl, rfl, rfl⟩

omit [LinearOrderedField K] in
theorem sameLatent_trans {a b c : GibbsState n M K}
    (h1 : sameLatent a b) (h2 : sameLatent b c) : sameLatent a c := by
  obtain ⟨e1, e2, e3, e4, e5, e6⟩ := h1
  obtain ⟨f1, f2, f3, f4, f5, f6⟩ := h2
  exact ⟨e1.trans f1, e2.trans f2, e3.trans f3, e4.trans f4, e5.trans f5, e6.trans f6⟩

/-- get_lnlikelihood only mutates the two cache fields of the state. -/
theorem get_lnlikelihood_snd (pta : PTA p n M K) (la : LinAlg M K)
    (nm : NumOracle K) (st : GibbsState n M K) (xs : Fin p → K) :
    (get_lnlikelihood pta la nm st xs).2 =
      { st with TNT := some (lnlikeCache pta nm st xs).1,
                d := some (lnlikeCache pta nm st xs).2 } := by
  unfold get_lnlikelihood
  cases h : la.chol (lnlikeSigma pta nm st xs) <;> simp [h]

theorem get_lnlikelihood_sameLatent (pta : PTA p n M K) (la : LinAlg M K)
    (nm : NumOracle K) (st : GibbsState n M K) (xs : Fin p → K) :
    sameLatent (get_lnlikelihood pta la nm st xs).2 st := by
  rw [get_lnlikelihood_snd]
  exact ⟨rfl, rfl, rfl, rfl, rfl, rfl⟩

theorem hyperStep_sameLatent (pta : PTA p n M K) (la : LinAlg M K)
    (nm : NumOracle K) (o : MHOracle p K) (s : K)
    (acc : (Fin p → K) × Option K × K × GibbsState n M K) (ii : ℕ) :
    sameLatent (hyperStep pta la nm o s acc ii).2.2.2 acc.2.2.2 := by
  unfold hyperStep
  dsimp only
  split
  · exact get_lnlikelihood_sameLatent pta la nm acc.2.2.2 _
  · exact get_lnlikelihood_sameLatent pta la nm acc.2.2.2 _

theorem foldl_hyperStep_sameLatent (pta : PTA p n M K) (la : LinAlg M K)
    (nm : NumOracle K) (o : MHOracle p K) (s : K) (l : List ℕ)
    (acc : (Fin p → K) × Option K × K × GibbsState n M K) :
    sameLatent ((l.foldl (hyperStep pta la nm o s) acc)).2.2.2 acc.2.2.2 := by
  induction l generalizing acc with
  | nil => exact sameLatent_refl _
  | cons a t ih =>
      exact sameLatent_trans (ih _) (hyperStep_sameLatent pta la nm o s acc a)

theorem update_hyper_params_sameLatent (pta : PTA p n M K) (la : LinAlg M K)
    (nm : NumOracle K) (o : MHOracle p K) (st : GibbsState n M K)
    (xs : Fin p → K) :
    sameLatent (update_hyper_params pta la nm o st xs).2 st := by
  unfold update_hyper_params
  exact sameLatent_trans
    (foldl_hyperStep_sameLatent pta la nm o _ (List.range 10) _)
    (get_lnlikelihood_sameLatent pta la nm st xs)

theorem sweepMH_sameLatent (pta : PTA p n M K) (la : LinAlg M K)
    (nm : NumOracle K) (ow oh : MHOracle p K) (st : GibbsState n M K)
    (xs : Fin p → K) :
    sameLatent (sweepMH pta la nm ow oh st xs).2 st := by
  unfold sweepMH
  exact sameLatent_trans
    (update_hyper_params_sameLatent pta la nm oh _ _)
    (sameLatent_refl _)

theorem update_b_sameLatent (pta : PTA p n M K) (la : LinAlg M K)
    (nm : NumOracle K) (eps : Fin M → K) (st : GibbsState n M K)
    (xs : Fin p → K) (bs : (Fin M → K) × GibbsState n M K)
    (h : update_b pta la nm eps st xs = some bs) : sameLatent bs.2 st := by
  unfold update_b at h
  dsimp only at h
  split at h
  · obtain rfl := Option.some.inj h
    exact ⟨rfl, rfl, rfl, rfl, rfl, rfl⟩
  · split at h
    · exact absurd h (by simp)
    · obtain rfl := Option.some.inj h
      exact ⟨rfl, rfl, rfl, rfl, rfl, rfl⟩

/-- A Cholesky failure on the Sigma of the call makes get_lnlikelihood
return minus infinity (none). -/
theorem get_lnlikelihood_fst_none (pta : PTA p n M K) (la : LinAlg M K)
    (nm : NumOracle K) (st : GibbsState n M K) (xs : Fin p → K)
    (hchol : la.chol (lnlikeSigma pta nm st xs) = none) :
    (get_lnlikelihood pta la nm st xs).1 = none := by
  unfold get_lnlikelihood
  rw [hchol]

/-- When the Cholesky oracle always raises, every proposal of the
correlated-noise Metropolis loop is rejected, so the parameter vector
passes through update_hyper_params unchanged. -/
theorem update_hyper_params_fst_of_chol_none (pta : PTA p n M K)
    (la : LinAlg M K) (nm : NumOracle K) (o : MHOracle p K)
    (st : GibbsState n M K) (xs : Fin p → K)
    (hchol : ∀ S, la.chol S = none) :
    (update_hyper_params pta la nm o st xs).1 = xs := by
  have key : ∀ (l : List ℕ)
      (acc : (Fin p → K) × Option K × K × GibbsState n M K),
      (l.foldl (hyperStep pta la nm o
        ((5 / 100 : K) * ((get_hyper_param_indices pta).length : K))) acc).1
        = acc.1 := by
    intro l
    induction l with
    | nil => intro acc; rfl
    | cons a t ih =>
        intro acc
        rw [List.foldl_cons, ih]
        unfold hyperStep
        dsimp only
        rw [get_lnlikelihood_fst_none _ _ _ _ _ (hchol _)]
        rfl
  unfold update_hyper_params
  dsimp only
  exact key _ _

/-- Characterisation of a successful sweep tail: the returned vector is the
post-Metropolis vector, update_z succeeded on the theta-updated state, and
the fields of the final state are the respective update outputs. -/
theorem sweepTail_eq_some (cfg : GibbsConfig K) (pta : PTA p n M K)
    (nm : NumOracle K) (o : SweepOracle p n M K) (x2 : Fin p → K)
    (st2 : GibbsState n M K) (xr : Fin p → K) (st' : GibbsState n M K)
    (h : sweepTail cfg pta nm o x2 st2 = some (xr, st')) :
    xr = x2 ∧ ∃ pz,
      update_z cfg pta nm o.zunif
        { st2 with theta := update_theta cfg o.betaDraw st2 } x2 = some pz
      ∧ st'.b = st2.b
      ∧ st'.pout = pz.1 ∧ st'.z = pz.2
      ∧ st'.theta = update_theta cfg o.betaDraw st2
      ∧ st'.alpha = update_alpha cfg pta o.gammaDraw
          { st2 with
            theta := update_theta cfg o.betaDraw st2
            pout := pz.1
            z := pz.2 } x2
      ∧ st'.tdf = update_df cfg nm o.dfPick
          { st2 with
            theta := update_theta cfg o.betaDraw st2
            pout := pz.1
            z := pz.2
            alpha := update_alpha cfg pta o.gammaDraw
              { st2 with
                theta := update_theta cfg o.betaDraw st2
                pout := pz.1
                z := pz.2 } x2 } := by
  unfold sweepTail at h
  dsimp only at h
  split at h
  · simp at h
  · rename_i pz heq
    rw [Option.some.injEq, Prod.mk.injEq] at h
    obtain ⟨hxr, hst⟩ := h
    subst hst
    exact ⟨hxr.symm, pz, heq, rfl, rfl, rfl, rfl, rfl, rfl⟩

/-- Characterisation of a successful sweep: the returned vector is the
post-Metropolis vector; there is an intermediate state agreeing with the
input state on all latent fields (and on b whenever the update_b guard
failed) from which the tail updates produced the final state. -/
theorem sweepBody_eq_some [NeZero p] (cfg : GibbsConfig K)
    (pta : PTA p n M K) (la : LinAlg M K) (nm : NumOracle K)
    (o : SweepOracle p n M K) (xs : Fin p → K) (st : GibbsState n M K)
    (x2 : Fin p → K) (st' : GibbsState n M K)
    (h : sweepBody cfg pta la nm o xs st = some (x2, st')) :
    x2 = (sweepMH pta la nm o.white o.hyper st xs).1
    ∧ ∃ stm : GibbsState n M K, ∃ pz,
        stm.pout = st.pout ∧ stm.z = st.z ∧ stm.alpha = st.alpha
        ∧ stm.theta = st.theta ∧ stm.tdf = st.tdf
        ∧ (bUpdateCond (sweepMH pta la nm o.white o.hyper st xs).1 xs = false →
            stm.b = st.b)
        ∧ update_z cfg pta nm o.zunif
            { stm with theta := update_theta cfg o.betaDraw stm } x2 = some pz
        ∧ st'.b = stm.b
        ∧ st'.pout = pz.1 ∧ st'.z = pz.2
        ∧ st'.theta = update_theta cfg o.betaDraw stm
        ∧ st'.tdf = update_df cfg nm o.dfPick
            { stm with
              theta := update_theta cfg o.betaDraw stm
              pout := pz.1
              z := pz.2
              alpha := update_alpha cfg pta o.gammaDraw
                { stm with
                  theta := update_theta cfg o.betaDraw stm
                  pout := pz.1
                  z := pz.2 } x2 } := by
  have hmh := sweepMH_sameLatent pta la nm o.white o.hyper st xs
  unfold sweepBody at h
  dsimp only at h
  split at h
  · rename_i hcond
    split at h
    · simp at h
    · rename_i bs hub
      have hbs := update_b_sameLatent _ _ _ _ _ _ _ hub
      have hlat := sameLatent_trans hbs hmh
      obtain ⟨hx, pz, heq, hb, h1, h2, h3, h4, h5⟩ :=
        sweepTail_eq_some _ _ _ _ _ _ _ _ h
      subst hx
      refine ⟨rfl, { bs.2 with b := bs.1 }, pz, hlat.2.1, hlat.2.2.1,
        hlat.2.2.2.1, hlat.2.2.2.2.1, hlat.2.2.2.2.2, ?_, heq, hb, h1, h2, h3, h5⟩
      intro hf
      rw [hf] at hcond
      exact absurd hcond (by simp)
  · rename_i hcond
    have hlat := hmh
    obtain ⟨hx, pz, heq, hb, h1, h2, h3, h4, h5⟩ :=
      sweepTail_eq_some _ _ _ _ _ _ _ _ h
    subst hx
    exact ⟨rfl, (sweepMH pta la nm o.white o.hyper st xs).2, pz, hlat.2.1,
      hlat.2.2.1, hlat.2.2.2.1, hlat.2.2.2.2.1, hlat.2.2.2.2.2,
      fun _ => hlat.1, heq, hb, h1, h2, h3, h5⟩

/-- update_theta either returns theta unchanged (t and gaussian variants)
or the value of the Beta oracle (mixture and vvh17). -/
theorem update_theta_cases (cfg : GibbsConfig K) (betaDraw : K → K → K)
    (st : GibbsState n M K) :
    update_theta cfg betaDraw st = st.theta
    ∨ ∃ a b, update_theta cfg betaDraw st = betaDraw a b := by
  unfold update_theta
  cases cfg.lmodel
  · exact Or.inl rfl
  · exact Or.inl rfl
  · exact Or.inr ⟨_, _, rfl⟩
  · exact Or.inr ⟨_, _, rfl⟩

/-- The indicator vector returned by update_z is binary whenever the
current one is. -/
theorem update_z_snd_binary (cfg : GibbsConfig K) (pta : PTA p n M K)
    (nm : NumOracle K) (zunif : Fin n → K) (st : GibbsState n M K)
    (xs : Fin p → K) (pz : (Fin n → K) × (Fin n → K))
    (hz : ∀ i, st.z i = 0 ∨ st.z i = 1)
    (heq : update_z cfg pta nm zunif st xs = some pz) :
    ∀ i, pz.2 i = 0 ∨ pz.2 i = 1 := by
  unfold update_z at heq
  split at heq
  · obtain rfl := Option.some.inj heq
    exact hz
  · obtain rfl := Option.some.inj heq
    exact hz
  · split at heq
    · exact absurd heq (by simp)
    · dsimp only at heq
      obtain rfl := Option.some.inj heq
      intro i
      dsimp only
      split <;> split
      · exact Or.inr rfl
      · exact Or.inl rfl
      · exact Or.inr rfl
      · exact Or.inl rfl
  · split at heq
    · exact absurd heq (by simp)
    · dsimp only at heq
      obtain rfl := Option.some.inj heq
      intro i
      dsimp only
      split <;> split
      · exact Or.inr rfl
      · exact Or.inl rfl
      · exact Or.inr rfl
      · exact Or.inl rfl

/-- The degrees of freedom returned by update_df stay in the grid range
whenever the held value does. -/
theorem update_df_bounds (cfg : GibbsConfig K) (nm : NumOracle K)
    (dfPick : (Fin 30 → K) → Fin 30) (st : GibbsState n M K)
    (h : 1 ≤ st.tdf ∧ st.tdf ≤ 30) :
    1 ≤ update_df cfg nm dfPick st ∧ update_df cfg nm dfPick st ≤ 30 := by
  unfold update_df
  split
  · have key : ∀ j : Fin 30, 1 ≤ (((j : ℕ) : K) + 1) ∧ (((j : ℕ) : K) + 1) ≤ 30 := by
      intro j
      constructor
      · have h0 : (0 : K) ≤ ((j : ℕ) : K) := Nat.cast_nonneg _
        linarith
      · have h29 : ((j : ℕ) : K) ≤ ((29 : ℕ) : K) :=
          Nat.cast_le.mpr (Nat.lt_succ_iff.mp j.isLt)
        have h29' : ((29 : ℕ) : K) = (29 : K) := by norm_num
        rw [h29'] at h29
        linarith
    exact key _
  · exact h

/-- The constructor establishes the C6 invariant whenever the configured m
lies strictly between zero and one and the configured tdf lies in the grid
range. -/
theorem gibbsInit_stateInv (cfg : GibbsConfig K) (st0 : GibbsState n M K)
    (hm0 : 0 < cfg.mp) (hm1 : cfg.mp < 1)
    (ht0 : 1 ≤ cfg.tdf) (ht1 : cfg.tdf ≤ 30)
    (hinit : gibbsInit cfg = (some st0 : Option (GibbsState n M K))) :
    stateInv st0 := by
  obtain rfl := Option.some.inj hinit
  refine ⟨⟨le_of_lt hm0, le_of_lt hm1⟩, ?_, ht0, ht1⟩
  intro i
  dsimp only [gibbsInit]
  split
  · exact Or.inr rfl
  · exact Or.inl rfl

/-- One successful sweep preserves the C6 invariant, given that the Beta
oracle of the sweep returns values in the unit interval. -/
theorem sweepBody_stateInv [NeZero p] (cfg : GibbsConfig K)
    (pta : PTA p n M K) (la : LinAlg M K) (nm : NumOracle K)
    (o : SweepOracle p n M K) (xs : Fin p → K) (st : GibbsState n M K)
    (x2 : Fin p → K) (st' : GibbsState n M K)
    (hbeta : ∀ a b, 0 ≤ o.betaDraw a b ∧ o.betaDraw a b ≤ 1)
    (hinv : stateInv st)
    (h : sweepBody cfg pta la nm o xs st = some (x2, st')) : stateInv st' := by
  obtain ⟨-, stm, pz, hsp, hsz, hsa, hsth, hstdf, -, hzeq, hb', hp', hzz', hth', htd'⟩ :=
    sweepBody_eq_some cfg pta la nm o xs st x2 st' h
  obtain ⟨hth, hzb, htdf⟩ := hinv
  refine ⟨?_, ?_, ?_⟩
  · rw [hth']
    rcases update_theta_cases cfg o.betaDraw stm with hc | ⟨a, b, hc⟩
    · rw [hc, hsth]
      exact hth
    · rw [hc]
      exact ⟨(hbeta a b).1, (hbeta a b).2⟩
  · intro i
    rw [hzz']
    refine update_z_snd_binary cfg pta nm o.zunif _ x2 pz ?_ hzeq i
    intro i'
    show stm.z i' = 0 ∨ stm.z i' = 1
    rw [hsz]
    exact hzb i'
  · rw [htd']
    refine update_df_bounds cfg nm o.dfPick _ ?_
    show 1 ≤ stm.tdf ∧ stm.tdf ≤ 30
    rw [hstdf]
    exact htdf

/-- Every completed prefix of the sweep loop preserves the C6 invariant. -/
theorem sampleLoop_stateInv [NeZero p] (cfg : GibbsConfig K)
    (pta : PTA p n M K) (la : LinAlg M K) (nm : NumOracle K)
    (os : ℕ → SweepOracle p n M K)
    (hbeta : ∀ k a b, 0 ≤ (os k).betaDraw a b ∧ (os k).betaDraw a b ≤ 1) :
    ∀ (fuel ii : ℕ) (x : Fin p → K) (st : GibbsState n M K)
      (ch : Chains p n M K) (itr : ℕ)
      (out : Chains p n M K × (Fin p → K) × GibbsState n M K × ℕ),
      stateInv st →
      sampleLoop cfg pta la nm os fuel ii x st ch itr = some out →
      stateInv out.2.2.1 := by
  intro fuel
  induction fuel with
  | zero =>
      intro ii x st ch itr out hinv h
      rw [sampleLoop] at h
      obtain rfl := Option.some.inj h
      exact hinv
  | succ f ih =>
      intro ii x st ch itr out hinv h
      rw [sampleLoop] at h
      split at h
      · exact absurd h (by simp)
      · rename_i r hsw
        exact ih _ _ _ _ _ _
          (sweepBody_stateInv cfg pta la nm (os ii) x st r.1 r.2 (hbeta ii) hinv hsw) h

/-- For the gaussian and t variants update_z returns the pout vector
unchanged. -/
theorem update_z_fst_pout (cfg : GibbsConfig K) (pta : PTA p n M K)
    (nm : NumOracle K) (zunif : Fin n → K) (st : GibbsState n M K)
    (xs : Fin p → K) (pz : (Fin n → K) × (Fin n → K))
    (hmodel : cfg.lmodel = LModel.gaussian ∨ cfg.lmodel = LModel.t)
    (heq : update_z cfg pta nm zunif st xs = some pz) : pz.1 = st.pout := by
  rcases hmodel with hm | hm <;>
    (unfold update_z at heq; rw [hm] at heq;
     obtain rfl := Option.some.inj heq; rfl)

/-- For the gaussian and t variants a successful sweep leaves pout
untouched. -/
theorem sweepBody_pout_gaussian_t [NeZero p] (cfg : GibbsConfig K)
    (pta : PTA p n M K) (la : LinAlg M K) (nm : NumOracle K)
    (o : SweepOracle p n M K) (xs : Fin p → K) (st : GibbsState n M K)
    (x2 : Fin p → K) (st' : GibbsState n M K)
    (hmodel : cfg.lmodel = LModel.gaussian ∨ cfg.lmodel = LModel.t)
    (h : sweepBody cfg pta la nm o xs st = some (x2, st')) :
    st'.pout = st.pout := by
  obtain ⟨-, stm, pz, hsp, -, -, -, -, -, hzeq, -, hp', -, -, -⟩ :=
    sweepBody_eq_some cfg pta la nm o xs st x2 st' h
  rw [hp', update_z_fst_pout cfg pta nm o.zunif _ x2 pz hmodel hzeq]
  exact hsp

/-- For the gaussian and t variants the sweep loop keeps the in-memory
pout at zero and every row of poutchain at zero. -/
theorem sampleLoop_pout_zero [NeZero p] (cfg : GibbsConfig K)
    (pta : PTA p n M K) (la : LinAlg M K) (nm : NumOracle K)
    (os : ℕ → SweepOracle p n M K)
    (hmodel : cfg.lmodel = LModel.gaussian ∨ cfg.lmodel = LModel.t) :
    ∀ (fuel ii : ℕ) (x : Fin p → K) (st : GibbsState n M K)
      (ch : Chains p n M K) (itr : ℕ)
      (out : Chains p n M K × (Fin p → K) × GibbsState n M K × ℕ),
      (∀ i, st.pout i = 0) →
      (∀ jj i, ch.poutchain jj i = 0) →
      sampleLoop cfg pta la nm os fuel ii x st ch itr = some out →
      (∀ jj i, out.1.poutchain jj i = 0) ∧ (∀ i, out.2.2.1.pout i = 0) := by
  intro fuel
  induction fuel with
  | zero =>
      intro ii x st ch itr out hst hch h
      rw [sampleLoop] at h
      obtain rfl := Option.some.inj h
      exact ⟨hch, hst⟩
  | succ f ih =>
      intro ii x st ch itr out hst hch h
      rw [sampleLoop] at h
      split at h
      · exact absurd h (by simp)
      · rename_i r hsw
        have hst' : ∀ i, r.2.pout i = 0 := by
          intro i
          rw [sweepBody_pout_gaussian_t cfg pta la nm (os ii) x st r.1 r.2 hmodel hsw]
          exact hst i
        have hch' : ∀ jj i, (recordRow ch ii x st).poutchain jj i = 0 := by
          intro jj i
          unfold recordRow
          dsimp only
          split
          · exact hst i
          · exact hch jj i
        exact ih _ _ _ _ _ _ hst' hch' h

end HelperLemmas

section Claims

/-- C9: poutlier returns per observation exactly (PtB Pb) over
(PtB Pb + PtA (1 - Pb)), with PtA the Normal density of the residual at
mean zero and variance N and PtB the uniform alternative density 1 over P0,
together with the whitened residual r over sqrt N: the source form and the
specification form agree at every input, as the pure function of its inputs
that the definition is. -/
theorem poutlier_matches_specform {n : ℕ} (r N : Fin n → ℝ) (Pb P0 : ℝ) :
    poutlier r N Pb P0 = poutlier_specform r N Pb P0 := by
  have hexp : ∀ i : Fin n, (-0.5 * r i ^ 2 / N i) = (-(r i ^ 2) / (2 * N i)) := by
    intro i
    norm_num
    ring
  unfold poutlier poutlier_specform
  refine Prod.ext ?_ rfl
  funext i
  simp only [hexp]
  norm_num

/-- C5: update_alpha with vary_alpha set and at least one indicator equal to
one draws a new alpha for every observation, flagged or not, each as the
half of (squared basis-subtracted residual times z over the white variance
plus tdf) divided by an independent Gamma((z + tdf) / 2) variate; with
vary_alpha unset or no flagged observation the alpha vector is returned
unchanged.  The hypothesis that z is binary is the indicator invariant. -/
theorem update_alpha_spec {p n M : ℕ} {K : Type*} [LinearOrderedField K]
    (cfg : GibbsConfig K) (pta : PTA p n M K) (gammaDraw : Fin n → K → K)
    (st : GibbsState n M K) (xs : Fin p → K)
    (hz : ∀ i, st.z i = 0 ∨ st.z i = 1) :
    (cfg.vary_alpha = true → (∃ i, st.z i = 1) →
      ∀ i, update_alpha cfg pta gammaDraw st xs i =
        (((pta.residuals i - theta_mean pta st xs i) ^ 2 * st.z i
            / pta.ndiag xs i + st.tdf) / 2)
          / gammaDraw i ((st.z i + st.tdf) / 2))
    ∧ ((cfg.vary_alpha = false ∨ (∀ i, st.z i = 0)) →
        update_alpha cfg pta gammaDraw st xs = st.alpha) := by
  constructor
  · intro hva hex i
    obtain ⟨i0, hi0⟩ := hex
    have hsum : (1 : K) ≤ ∑ j, st.z j := by
      have hle : st.z i0 ≤ ∑ j, st.z j := by
        refine Finset.single_le_sum (fun j _ => ?_) (Finset.mem_univ i0)
        rcases hz j with h | h <;> simp [h]
      calc (1 : K) = st.z i0 := hi0.symm
        _ ≤ ∑ j, st.z j := hle
    unfold update_alpha
    rw [if_pos ⟨hsum, hva⟩]
  · intro hcase
    unfold update_alpha
    rcases hcase with hva | hz0
    · rw [if_neg]
      rintro ⟨-, hva'⟩
      rw [hva] at hva'
      exact Bool.false_ne_true hva'
    · rw [if_neg]
      rintro ⟨hsum, -⟩
      have : (∑ j, st.z j) = 0 := Finset.sum_eq_zero fun j _ => hz0 j
      rw [this] at hsum
      exact absurd hsum (by norm_num)

/-- C5 witness: the formula evaluated at the concrete mixture fixture with
its single flagged observation. -/
theorem update_alpha_spec_witness :
    update_alpha cfgMix ptaQ oTriv.gammaDraw stMix xsQ 0 =
      (((ptaQ.residuals 0 - theta_mean ptaQ stMix xsQ 0) ^ 2 * stMix.z 0
          / ptaQ.ndiag xsQ 0 + stMix.tdf) / 2)
        / oTriv.gammaDraw 0 ((stMix.z 0 + stMix.tdf) / 2) :=
  (update_alpha_spec cfgMix ptaQ oTriv.gammaDraw stMix xsQ
    (fun _ => Or.inr rfl)).1 rfl ⟨0, rfl⟩ 0

/-- C8: in update_z under the mixture or vvh17 model, a NaN entry of the
posterior weight ratio (for finite floats the ratio is NaN exactly in the
zero-over-zero case) is replaced by exactly 1 before the Bernoulli draw, so
the stored pout entry is 1 and the indicator is drawn with success
probability min 1 1 = 1, hence equals 1 for every uniform draw below one,
and the update returns normally rather than raising. -/
theorem update_z_nan_clamp {p n M : ℕ} {K : Type*} [LinearOrderedField K]
    (cfg : GibbsConfig K) (pta : PTA p n M K) (nm : NumOracle K)
    (zunif : Fin n → K) (st : GibbsState n M K) (xs : Fin p → K)
    (top : Fin n → K) (i : Fin n)
    (hmodel : cfg.lmodel = LModel.mixture ∨ cfg.lmodel = LModel.vvh17)
    (htop : ztop cfg pta nm st xs = some top)
    (hnan : zbot pta nm st xs top i = 0 ∧ top i = 0)
    (hu : zunif i < 1) :
    ∃ q z', update_z cfg pta nm zunif st xs = some (q, z')
      ∧ q i = 1 ∧ z' i = 1 := by
  have heq : update_z cfg pta nm zunif st xs =
      some (fun j => if zbot pta nm st xs top j = 0 ∧ top j = 0 then 1
              else top j / zbot pta nm st xs top j,
            fun j => if zunif j <
                min (if zbot pta nm st xs top j = 0 ∧ top j = 0 then 1
                     else top j / zbot pta nm st xs top j) 1 then 1 else 0) := by
    rcases hmodel with hm | hm <;>
      (unfold update_z; rw [hm]; dsimp only; rw [htop])
  refine ⟨_, _, heq, ?_, ?_⟩
  · simp only [hnan.1, hnan.2]
    simp
  · simp only [hnan.1, hnan.2]
    simp [hu]

/-- C8 witness: the concrete mixture fixture whose normal-density oracle
vanishes, producing the zero-over-zero ratio at observation zero. -/
theorem update_z_nan_clamp_witness :
    ∃ q z', update_z cfgMix ptaQ nmQ oTriv.zunif stMix xsQ = some (q, z')
      ∧ q 0 = 1 ∧ z' 0 = 1 :=
  update_z_nan_clamp cfgMix ptaQ nmQ oTriv.zunif stMix xsQ
    (fun j => stMix.theta * nmQ.normpdf (ptaQ.residuals j)
      (theta_mean ptaQ stMix xsQ j) (nmQ.sqrt (stMix.alpha j * ptaQ.ndiag xsQ j)))
    0 (Or.inl rfl) rfl
    (by constructor <;> norm_num [zbot, nmQ, stMix, ptaQ, theta_mean, xsQ])
    (by norm_num [oTriv])

/-- C4 counterexample: with model vvh17 and pspin left unset, the
constructor succeeds (the claim requires it to fail before any sweep), and
the failure instead surfaces when update_z runs inside the first sweep. -/
theorem vvh17_construction_succeeds :
    (gibbsInit cfgVvh : Option (GibbsState 1 1 ℚ)).isSome = true
    ∧ update_z cfgVvh ptaQ nmQ oTriv.zunif stMix xsQ = none :=
  ⟨rfl, rfl⟩

/-- C4 amended: constructing the sampler with model vvh17 and pspin missing
does not fail at construction; the constructor performs no validation and
returns a state, and the failure occurs inside a sweep, where update_z
raises on theta divided by pspin, making the whole sweep raise. -/
theorem vvh17_missing_pspin_fails_in_sweep {p n M : ℕ} {K : Type*}
    [LinearOrderedField K] [NeZero p]
    (cfg : GibbsConfig K) (pta : PTA p n M K) (la : LinAlg M K)
    (nm : NumOracle K) (o : SweepOracle p n M K) (xs : Fin p → K)
    (st : GibbsState n M K)
    (hmodel : cfg.lmodel = LModel.vvh17) (hps : cfg.pspin = none) :
    (gibbsInit cfg : Option (GibbsState n M K)).isSome = true
    ∧ update_z cfg pta nm o.zunif st xs = none
    ∧ sweepBody cfg pta la nm o xs st = none := by
  have hz : ∀ (st1 : GibbsState n M K) (x2 : Fin p → K),
      update_z cfg pta nm o.zunif st1 x2 = none := by
    intro st1 x2
    unfold update_z ztop
    rw [hmodel, hps]
    rfl
  refine ⟨rfl, hz st xs, ?_⟩
  cases hres : sweepBody cfg pta la nm o xs st with
  | none => rfl
  | some r =>
      obtain ⟨-, stm, pz, -, -, -, -, -, -, hzeq, -⟩ :=
        sweepBody_eq_some cfg pta la nm o xs st r.1 r.2 hres
      rw [hz] at hzeq
      exact Option.noConfusion hzeq

/-- C4 witness: the amended behaviour evaluated on the concrete vvh17
fixture. -/
theorem vvh17_missing_pspin_fails_in_sweep_witness :
    (gibbsInit cfgVvh : Option (GibbsState 1 1 ℚ)).isSome = true
    ∧ update_z cfgVvh ptaQ nmQ oTriv.zunif stMix xsQ = none
    ∧ sweepBody cfgVvh ptaQ laQ nmQ oTriv xsQ stMix = none :=
  vvh17_missing_pspin_fails_in_sweep cfgVvh ptaQ laQ nmQ oTriv xsQ stMix rfl rfl

/-- C7: when the Cholesky factorisation of Sigma = TNT + diag(phiinv)
raises, get_lnlikelihood returns minus infinity (none) instead of
propagating the error, and the Metropolis acceptance test treats that value
as an automatic rejection for every prior value and uniform draw. -/
theorem lnlikelihood_chol_failure {p n M : ℕ} {K : Type*}
    [LinearOrderedField K] (pta : PTA p n M K) (la : LinAlg M K)
    (nm : NumOracle K) (st : GibbsState n M K) (xs : Fin p → K)
    (hchol : la.chol (lnlikeSigma pta nm st xs) = none) :
    (get_lnlikelihood pta la nm st xs).1 = none
    ∧ ∀ (p1 : K) (l0 : Option K) (p0 logu : K),
        metroAccept (get_lnlikelihood pta la nm st xs).1 p1 l0 p0 logu = false := by
  have h1 : (get_lnlikelihood pta la nm st xs).1 = none := by
    unfold get_lnlikelihood
    rw [hchol]
  refine ⟨h1, fun p1 l0 p0 logu => ?_⟩
  rw [h1]
  rfl

/-- C7 witness: the concrete fixture whose Cholesky oracle always raises. -/
theorem lnlikelihood_chol_failure_witness :
    (get_lnlikelihood ptaQ laQ nmQ stGauss xsQ).1 = none
    ∧ metroAccept (get_lnlikelihood ptaQ laQ nmQ stGauss xsQ).1 0 (some 0) 0 0 = false :=
  ⟨(lnlikelihood_chol_failure ptaQ laQ nmQ stGauss xsQ rfl).1,
   (lnlikelihood_chol_failure ptaQ laQ nmQ stGauss xsQ rfl).2 0 (some 0) 0 0⟩

/-- C3 amended: within each sweep the cached products are invalidated
exactly once, at the start (a sweep from a state with cleared caches is the
same sweep); the latent coefficients are redrawn exactly when every
coordinate of the post-Metropolis vector differs from the last coordinate
of the sweep-start vector.  That condition implies the vector changed (the
specification's only-if direction), but not conversely; when it fails, b is
left unchanged even if the vector changed. -/
theorem sweep_b_redraw_condition {p n M : ℕ} {K : Type*}
    [LinearOrderedField K] [NeZero p] (cfg : GibbsConfig K)
    (pta : PTA p n M K) (la : LinAlg M K) (nm : NumOracle K)
    (o : SweepOracle p n M K) (xs : Fin p → K) (st : GibbsState n M K) :
    (sweepBody cfg pta la nm o xs st =
        sweepBody cfg pta la nm o xs { st with TNT := none, d := none })
    ∧ (bUpdateCond (sweepMH pta la nm o.white o.hyper st xs).1 xs = true →
        (sweepMH pta la nm o.white o.hyper st xs).1 ≠ xs)
    ∧ (bUpdateCond (sweepMH pta la nm o.white o.hyper st xs).1 xs = false →
        ∀ x2 st', sweepBody cfg pta la nm o xs st = some (x2, st') →
          st'.b = st.b) := by
  refine ⟨rfl, ?_, ?_⟩
  · intro hcond
    unfold bUpdateCond at hcond
    have h2 := of_decide_eq_true hcond
    intro hne
    exact h2 ⟨p - 1, Nat.sub_one_lt (NeZero.ne p)⟩ (by rw [hne])
  · intro hcond x2 st' h
    obtain ⟨-, stm, pz, -, -, -, -, -, hbc, -, hb, -⟩ :=
      sweepBody_eq_some cfg pta la nm o xs st x2 st' h
    rw [hb, hbc hcond]

/-- C3 counterexample: a sweep of the concrete fixture in which the
Metropolis phases change the hyperparameter vector from (1, 2) to (5, 2),
yet b is not redrawn and leaves the sweep exactly as it entered it, because
the source guard compares every coordinate of the new vector against the
last scalar of the recorded row and the unchanged second coordinate still
equals it. -/
theorem sweep_b_not_redrawn_on_change :
    ∃ x2 st', sweepBody cfgGauss ptaQ laQ nmQ oKick xsQ stGauss = some (x2, st')
      ∧ x2 ≠ xsQ ∧ st'.b = stGauss.b := by
  have hchol : ∀ S, laQ.chol S = none := fun _ => rfl
  have hmh0 : (sweepMH ptaQ laQ nmQ oKick.white oKick.hyper stGauss xsQ).1 0 = 5 := by
    unfold sweepMH
    dsimp only
    rw [update_hyper_params_fst_of_chol_none _ _ _ _ _ _ hchol]
    norm_num [update_white_params, whiteStep, get_lnlikelihood_white, get_lnprior,
      get_white_noise_indices, bump, theta_mean, ptaQ, nmQ, oKick, mhKick, oTriv,
      mhTriv, stGauss, xsQ,
      List.range_succ, List.foldl_append, List.foldl_cons, List.foldl_nil,
      List.finRange_succ_eq_map, List.finRange_zero, List.filter_cons,
      List.filter_nil, Fin.sum_univ_succ, Fin.sum_univ_zero]
  have hmh1 : (sweepMH ptaQ laQ nmQ oKick.white oKick.hyper stGauss xsQ).1 1 = 2 := by
    unfold sweepMH
    dsimp only
    rw [update_hyper_params_fst_of_chol_none _ _ _ _ _ _ hchol]
    norm_num [update_white_params, whiteStep, get_lnlikelihood_white, get_lnprior,
      get_white_noise_indices, bump, theta_mean, ptaQ, nmQ, oKick, mhKick, oTriv,
      mhTriv, stGauss, xsQ,
      List.range_succ, List.foldl_append, List.foldl_cons, List.foldl_nil,
      List.finRange_succ_eq_map, List.finRange_zero, List.filter_cons,
      List.filter_nil, Fin.sum_univ_succ, Fin.sum_univ_zero]
  have hcond : bUpdateCond
      (sweepMH ptaQ laQ nmQ oKick.white oKick.hyper stGauss xsQ).1 xsQ = false := by
    have hx1 : xsQ ⟨2 - 1, Nat.sub_one_lt (NeZero.ne 2)⟩ = 2 := rfl
    unfold bUpdateCond
    apply decide_eq_false
    intro hall
    exact hall 1 (hmh1.trans hx1.symm)
  have hbody : sweepBody cfgGauss ptaQ laQ nmQ oKick xsQ stGauss =
      sweepTail cfgGauss ptaQ nmQ oKick
        (sweepMH ptaQ laQ nmQ oKick.white oKick.hyper stGauss xsQ).1
        (sweepMH ptaQ laQ nmQ oKick.white oKick.hyper stGauss xsQ).2 := by
    unfold sweepBody
    dsimp only
    rw [hcond]
    simp
  obtain ⟨r, hr⟩ : ∃ r, sweepTail cfgGauss ptaQ nmQ oKick
      (sweepMH ptaQ laQ nmQ oKick.white oKick.hyper stGauss xsQ).1
      (sweepMH ptaQ laQ nmQ oKick.white oKick.hyper stGauss xsQ).2 = some r :=
    ⟨_, rfl⟩
  obtain ⟨hx, pz, hzeq, hb, -, -, -, -, -⟩ :=
    sweepTail_eq_some _ _ _ _ _ _ _ _ hr
  refine ⟨r.1, r.2, by rw [hbody, hr], ?_, ?_⟩
  · rw [hx]
    intro heq
    have h0 := congrFun heq 0
    rw [hmh0] at h0
    norm_num [xsQ] at h0
  · rw [hb]
    exact (sweepMH_sameLatent ptaQ laQ nmQ oKick.white oKick.hyper stGauss xsQ).1

/-- C3 witness: a sweep whose Metropolis phase changes both coordinates
satisfies the redraw guard, and the only-if direction of the amended claim
then yields that the vector indeed changed. -/
theorem sweep_b_redraw_condition_witness :
    bUpdateCond (sweepMH ptaQ laQ nmQ oKick2.white oKick2.hyper stGauss xsQ).1
        xsQ = true
    ∧ (sweepMH ptaQ laQ nmQ oKick2.white oKick2.hyper stGauss xsQ).1 ≠ xsQ := by
  have hchol : ∀ S, laQ.chol S = none := fun _ => rfl
  have hmh0 : (sweepMH ptaQ laQ nmQ oKick2.white oKick2.hyper stGauss xsQ).1 0 = 5 := by
    unfold sweepMH
    dsimp only
    rw [update_hyper_params_fst_of_chol_none _ _ _ _ _ _ hchol]
    norm_num [update_white_params, whiteStep, get_lnlikelihood_white, get_lnprior,
      get_white_noise_indices, bump, theta_mean, ptaQ, nmQ, oKick2, mhKick2, oTriv,
      mhTriv, stGauss, xsQ,
      List.range_succ, List.foldl_append, List.foldl_cons, List.foldl_nil,
      List.finRange_succ_eq_map, List.finRange_zero, List.filter_cons,
      List.filter_nil, Fin.sum_univ_succ, Fin.sum_univ_zero]
  have hmh1 : (sweepMH ptaQ laQ nmQ oKick2.white oKick2.hyper stGauss xsQ).1 1 = 7 := by
    unfold sweepMH
    dsimp only
    rw [update_hyper_params_fst_of_chol_none _ _ _ _ _ _ hchol]
    norm_num [update_white_params, whiteStep, get_lnlikelihood_white, get_lnprior,
      get_white_noise_indices, bump, theta_mean, ptaQ, nmQ, oKick2, mhKick2, oTriv,
      mhTriv, stGauss, xsQ,
      List.range_succ, List.foldl_append, List.foldl_cons, List.foldl_nil,
      List.finRange_succ_eq_map, List.finRange_zero, List.filter_cons,
      List.filter_nil, Fin.sum_univ_succ, Fin.sum_univ_zero]
  have hcond : bUpdateCond
      (sweepMH ptaQ laQ nmQ oKick2.white oKick2.hyper stGauss xsQ).1 xsQ = true := by
    have hx1 : xsQ ⟨2 - 1, Nat.sub_one_lt (NeZero.ne 2)⟩ = 2 := rfl
    unfold bUpdateCond
    apply decide_eq_true
    intro j
    fin_cases j
    · show (sweepMH ptaQ laQ nmQ oKick2.white oKick2.hyper stGauss xsQ).1 0 ≠
        xsQ ⟨2 - 1, Nat.sub_one_lt (NeZero.ne 2)⟩
      rw [hmh0, hx1]
      norm_num
    · show (sweepMH ptaQ laQ nmQ oKick2.white oKick2.hyper stGauss xsQ).1 1 ≠
        xsQ ⟨2 - 1, Nat.sub_one_lt (NeZero.ne 2)⟩
      rw [hmh1, hx1]
      norm_num
  exact ⟨hcond,
    (sweep_b_redraw_condition cfgGauss ptaQ laQ nmQ oKick2 xsQ stGauss).2.1 hcond⟩

/-- C6: for every model variant and every configuration with m strictly
between zero and one and tdf in the grid range, after every sweep (any
number of completed sweeps of the sample loop, started from the constructed
initial state) theta lies in the unit interval, every indicator is zero or
one, and the degrees of freedom lie between 1 and 30.  The Beta oracle is
assumed to return values in the unit interval, the support of the scipy
Beta variates update_theta draws; the Bernoulli draws of update_z and the
grid draw of update_df are binary and grid-valued by construction. -/
theorem state_invariants {p n M : ℕ} {K : Type*} [LinearOrderedField K]
    [NeZero p] (cfg : GibbsConfig K) (pta : PTA p n M K) (la : LinAlg M K)
    (nm : NumOracle K) (os : ℕ → SweepOracle p n M K)
    (st0 : GibbsState n M K)
    (hm0 : 0 < cfg.mp) (hm1 : cfg.mp < 1)
    (ht0 : 1 ≤ cfg.tdf) (ht1 : cfg.tdf ≤ 30)
    (hbeta : ∀ k a b, 0 ≤ (os k).betaDraw a b ∧ (os k).betaDraw a b ≤ 1)
    (hinit : gibbsInit cfg = (some st0 : Option (GibbsState n M K)))
    (fuel ii : ℕ) (x : Fin p → K) (ch : Chains p n M K) (itr : ℕ)
    (out : Chains p n M K × (Fin p → K) × GibbsState n M K × ℕ)
    (hrun : sampleLoop cfg pta la nm os fuel ii x st0 ch itr = some out) :
    (0 ≤ out.2.2.1.theta ∧ out.2.2.1.theta ≤ 1)
    ∧ (∀ i, out.2.2.1.z i = 0 ∨ out.2.2.1.z i = 1)
    ∧ (1 ≤ out.2.2.1.tdf ∧ out.2.2.1.tdf ≤ 30) :=
  sampleLoop_stateInv cfg pta la nm os hbeta fuel ii x st0 ch itr out
    (gibbsInit_stateInv cfg st0 hm0 hm1 ht0 ht1 hinit) hrun

/-- C6 witness: the invariant instantiated at the concrete gaussian fixture
after zero sweeps. -/
theorem state_invariants_witness :
    0 ≤ stGauss.theta ∧ stGauss.theta ≤ 1 :=
  (state_invariants cfgGauss ptaQ laQ nmQ (fun _ => oTriv) stGauss
    (by norm_num [cfgGauss]) (by norm_num [cfgGauss])
    (by norm_num [cfgGauss]) (by norm_num [cfgGauss])
    (fun _ _ _ => by norm_num [oTriv])
    rfl 0 0 xsQ zeroChains 0 (zeroChains, xsQ, stGauss, 0) rfl).1

/-- C10: for the gaussian and t variants update_z never reassigns pout, so
a run of sample without resume from the constructed initial state leaves
every row of poutchain identically zero, and consequently every entry of
marg_outlierprob computed from it is zero, for every burn-in and iteration
count. -/
theorem poutchain_zero_gaussian_t {p n M : ℕ} {K : Type*}
    [LinearOrderedField K] [NeZero p] (cfg : GibbsConfig K)
    (pta : PTA p n M K) (la : LinAlg M K) (nm : NumOracle K)
    (os : ℕ → SweepOracle p n M K) (st0 : GibbsState n M K)
    (xs : Fin p → K) (niter : ℕ)
    (out : Chains p n M K × (Fin p → K) × GibbsState n M K × ℕ)
    (hmodel : cfg.lmodel = LModel.gaussian ∨ cfg.lmodel = LModel.t)
    (hinit : gibbsInit cfg = (some st0 : Option (GibbsState n M K)))
    (hrun : sample cfg pta la nm os xs st0 niter none = some out) :
    (∀ ii i, out.1.poutchain ii i = 0)
    ∧ (∀ iter burn, ∀ y ∈ marg_outlierprob niter out.1.poutchain iter burn,
        y = 0) := by
  have hp0 : ∀ i, st0.pout i = 0 := by
    obtain rfl := Option.some.inj hinit
    intro i
    rfl
  unfold sample at hrun
  dsimp only at hrun
  obtain ⟨hch, -⟩ := sampleLoop_pout_zero cfg pta la nm os hmodel niter 0 xs st0
    zeroChains 0 out hp0 (fun _ _ => rfl) hrun
  refine ⟨hch, ?_⟩
  intro iter burn y hy
  unfold marg_outlierprob at hy
  dsimp only at hy
  rw [List.mem_map] at hy
  obtain ⟨j, hj, hyj⟩ := hy
  rw [← hyj]
  split
  · rw [Finset.sum_eq_zero (fun i _ => hch i _)]
    exact zero_div _
  · rfl

/-- C10 witness: the conclusion instantiated at the concrete gaussian
fixture with zero allocated sweeps. -/
theorem poutchain_zero_gaussian_t_witness :
    (zeroChains : Chains 2 1 1 ℚ).poutchain 5 0 = 0 :=
  (poutchain_zero_gaussian_t cfgGauss ptaQ laQ nmQ (fun _ => oTriv) stGauss xsQ 0
    (zeroChains, xsQ, stGauss, 0) (Or.inl rfl) rfl rfl).1 5 0

/-- C1 counterexample: resuming does not re-seed the latent state.  In the
concrete fixture the last durable indicator row is zero everywhere while
the in-memory indicator keeps its constructor value one, so after resume
the in-memory indicators disagree with row k-1 of the truncated indicator
chain (the same holds for b, theta, alpha, df and pout). -/
theorem resume_does_not_reseed_state :
    (resumeInit lcC1 stMix (zeroChains : Chains 2 1 1 ℚ)).2.2.1.z 0 = 1
    ∧ (lcC1.cZ.take (minLength lcC1)).getD (minLength lcC1 - 1) (fun _ => 0) 0 = 0
    ∧ (resumeInit lcC1 stMix (zeroChains : Chains 2 1 1 ℚ)).2.2.1.z 0 ≠
        (lcC1.cZ.take (minLength lcC1)).getD (minLength lcC1 - 1) (fun _ => 0) 0 :=
  ⟨rfl, rfl, one_ne_zero⟩

/-- C1 amended: resume truncates all seven persisted arrays to the shortest
length k, copies the truncated rows into the in-memory arrays, continues
sweeping from sweep k, and re-seeds only the hyperparameter vector, from
row k-1 of the truncated chain; the mutable latent state (b, z, theta,
alpha, df and pout) passes through resume unchanged. -/
theorem resume_reseeds_only_parameter_vector {p n M : ℕ} {K : Type*}
    [LinearOrderedField K] [NeZero p]
    (cfg : GibbsConfig K) (pta : PTA p n M K) (la : LinAlg M K)
    (nm : NumOracle K) (os : ℕ → SweepOracle p n M K)
    (lc : LoadedChains p n M K) (xs : Fin p → K) (st : GibbsState n M K)
    (niter : ℕ) :
    ((lc.cChain.take (minLength lc)).length = minLength lc
      ∧ (lc.cB.take (minLength lc)).length = minLength lc
      ∧ (lc.cTheta.take (minLength lc)).length = minLength lc
      ∧ (lc.cZ.take (minLength lc)).length = minLength lc
      ∧ (lc.cAlpha.take (minLength lc)).length = minLength lc
      ∧ (lc.cPout.take (minLength lc)).length = minLength lc
      ∧ (lc.cDf.take (minLength lc)).length = minLength lc)
    ∧ (resumeInit lc st zeroChains).1 = minLength lc
    ∧ (resumeInit lc st zeroChains).2.2.1 = st
    ∧ (1 ≤ minLength lc →
        (resumeInit lc st zeroChains).2.1 =
          (lc.cChain.take (minLength lc)).getD (minLength lc - 1) (fun _ => 0))
    ∧ (∀ i < minLength lc,
        (resumeInit lc st zeroChains).2.2.2.zchain i =
          (lc.cZ.take (minLength lc)).getD i (fun _ => 0))
    ∧ sample cfg pta la nm os xs st niter (some lc) =
        sampleLoop cfg pta la nm os (niter - minLength lc) (minLength lc)
          (resumeInit lc st zeroChains).2.1 st (resumeInit lc st zeroChains).2.2.2
          0 := by
  refine ⟨⟨?_, ?_, ?_, ?_, ?_, ?_, ?_⟩, rfl, rfl, ?_, ?_, rfl⟩
  · rw [List.length_take]; unfold minLength; omega
  · rw [List.length_take]; unfold minLength; omega
  · rw [List.length_take]; unfold minLength; omega
  · rw [List.length_take]; unfold minLength; omega
  · rw [List.length_take]; unfold minLength; omega
  · rw [List.length_take]; unfold minLength; omega
  · rw [List.length_take]; unfold minLength; omega
  · intro hk
    have h1 : minLength lc - 1 < (lc.cChain.take (minLength lc)).length := by
      rw [List.length_take]
      unfold minLength
      unfold minLength at hk
      omega
    unfold resumeInit
    dsimp only
    rw [if_pos h1]
  · intro i hi
    have h1 : i < (lc.cZ.take (minLength lc)).length := by
      rw [List.length_take]
      unfold minLength
      unfold minLength at hi
      omega
    unfold resumeInit
    dsimp only
    rw [if_pos h1]

/-- C1 witness: the amended resume behaviour evaluated on the concrete
loaded chains of one durable sweep. -/
theorem resume_reseeds_only_parameter_vector_witness :
    (resumeInit lcC1 stMix (zeroChains : Chains 2 1 1 ℚ)).2.2.1 = stMix
    ∧ (resumeInit lcC1 stMix (zeroChains : Chains 2 1 1 ℚ)).2.1 =
        (lcC1.cChain.take (minLength lcC1)).getD (minLength lcC1 - 1)
          (fun _ => 0) :=
  ⟨(resume_reseeds_only_parameter_vector cfgGauss ptaQ laQ nmQ (fun _ => oTriv)
      lcC1 xsQ stMix 5).2.2.1,
   (resume_reseeds_only_parameter_vector cfgGauss ptaQ laQ nmQ (fun _ => oTriv)
      lcC1 xsQ stMix 5).2.2.2.1 (by decide)⟩

/-- C2: the summariser evaluated at a failing input.  With four allocated
rows, two recorded sweeps and three observations whose recorded outlier
probabilities are all one, the specification requires the length-3 vector
of post-burn-in recorded column means, (1, 1, 1); the source instead
averages rows 1 to 3 of the allocated array (two of which were never
recorded and are still zero) and keeps only min(iter, N) = 2 columns,
returning (1/3, 1/3). -/
theorem marg_outlierprob_failing_input :
    marg_outlierprob 4 pcC2 2 none = [1 / 3, 1 / 3]
    ∧ marg_outlierprob_specform pcC2 2 none = [1, 1, 1] := by
  constructor
  · norm_num [marg_outlierprob, pcC2, List.range_succ,
      Finset.sum_Ico_succ_top, Finset.Ico_self, Finset.sum_empty]
    rw [show (Finset.filter (fun x => x ≤ 1) (Finset.Ico 1 4)).card = 1 from rfl]
    norm_num
  · norm_num [marg_outlierprob_specform, pcC2, List.range_succ,
      Finset.sum_Ico_succ_top, Finset.Ico_self, Finset.sum_empty]
    rw [show (Finset.filter (fun x => x ≤ 1) (Finset.range 2)).card = 2 from rfl]
    norm_num

end Claims

end OutlierUtils
